import Mathlib

/-!
Verification of the conversation context store and transcript parser of
`bot.py`.  Strings are modelled as lists of characters; the Python string
operations used by the source (`strip`, `split("\n\n")`, `split("\n", 1)`,
`startswith`, `replace`) are embedded as executable functions below, and the
four source functions `get_context`, `add_to_context`, `clear_user_context`
and `parse_context_to_messages` are translated directly.
-/

namespace TgBot

abbrev Str := List Char

/-- Python whitespace, as stripped by `str.strip()` (ASCII/Latin-1 range). -/
def pyIsSpace (c : Char) : Bool :=
  c = ' ' || c = '\t' || c = '\n' || c = '\r' || c = '\x0b' || c = '\x0c' ||
  c = '\x1c' || c = '\x1d' || c = '\x1e' || c = '\x1f' || c = '\x85' || c = '\xa0'

/-- Python `str.lstrip()`. -/
def stripLeft (l : Str) : Str := l.dropWhile pyIsSpace

/-- Python `str.rstrip()`. -/
def stripRight (l : Str) : Str := (l.reverse.dropWhile pyIsSpace).reverse

/-- Python `str.strip()`. -/
def pyStrip (l : Str) : Str := stripLeft (stripRight l)

/-- Whether the string contains the two-newline block separator `"\n\n"`. -/
def hasSep : Str → Bool
  | [] => false
  | [_] => false
  | a :: b :: rest => (a = '\n' && b = '\n') || hasSep (b :: rest)

/-- Python `s.split("\n\n")`: non-overlapping, left-to-right. -/
def splitSep : Str → List Str
  | [] => [[]]
  | [c] => [[c]]
  | a :: b :: rest =>
    if a = '\n' ∧ b = '\n' then
      [] :: splitSep rest
    else
      (a :: (splitSep (b :: rest)).headI) :: (splitSep (b :: rest)).tail

/-- Python `s.split("\n", 1)`: the part before the first newline, and the
remainder after it when a newline exists. -/
def splitFirstNl : Str → Str × Option Str
  | [] => ([], none)
  | c :: rest =>
    if c = '\n' then ([], some rest)
    else (c :: (splitFirstNl rest).1, (splitFirstNl rest).2)

/-- Python `s.replace("role: ", "")`: removes every non-overlapping
occurrence of `"role: "`, scanning left to right. -/
def stripRoleTags : Str → Str
  | 'r' :: 'o' :: 'l' :: 'e' :: ':' :: ' ' :: rest => stripRoleTags rest
  | c :: rest => c :: stripRoleTags rest
  | [] => []

/-- One entry of the `messages` list built by `parse_context_to_messages`. -/
structure Message where
  role : Str
  content : Str
deriving DecidableEq

/-- The block appended by `add_to_context`:
`f"role: {role}\n{content}\n\n"`. -/
def renderBlock (role content : Str) : Str :=
  "role: ".data ++ role ++ '\n' :: (content ++ '\n' :: '\n' :: [])

/-- The `user_contexts` dictionary: user id to stored transcript blob. -/
abbrev ContextTable := Int → Option Str

/-- The dictionary at process start: no entries. -/
def emptyContexts : ContextTable := fun _ => none

/-- Dictionary assignment `user_contexts[user_id] = b` for an `Int` key. -/
def setCtx (t : ContextTable) (u : Int) (b : Str) : ContextTable :=
  fun v => if v = u then some b else t v

/-- `get_context`: creates an empty entry when absent, returns the blob. -/
def get_context (user_id : Int) (t : ContextTable) : Str × ContextTable :=
  match t user_id with
  | none => ([], setCtx t user_id [])
  | some b => (b, t)

/-- `add_to_context`: creates an empty entry when absent, then appends the
rendered block to the user entry. -/
def add_to_context (user_id : Int) (role content : Str) (t : ContextTable) :
    ContextTable :=
  setCtx t user_id ((t user_id).getD [] ++ renderBlock role content)

/-- `clear_user_context`: resets an existing entry to the empty string and
reports whether an entry existed. -/
def clear_user_context (user_id : Int) (t : ContextTable) : Bool × ContextTable :=
  match t user_id with
  | some _ => (true, setCtx t user_id [])
  | none => (false, t)

/-- The body of the per-block loop of `parse_context_to_messages`:
skip a block that is empty after stripping, split the stripped block on the
first newline, require a remainder to exist, require the header to start
with `"role: "`, compute the tag by removing every `"role: "` occurrence
and stripping, and keep only the tags `"user"` and `"assistant"`. -/
def parseBlock (block : Str) : Option Message :=
  if pyStrip block = [] then none
  else
    match (splitFirstNl (pyStrip block)).2 with
    | none => none
    | some content =>
      if "role: ".data.isPrefixOf (splitFirstNl (pyStrip block)).1 then
        if pyStrip (stripRoleTags (splitFirstNl (pyStrip block)).1) = "user".data ∨
           pyStrip (stripRoleTags (splitFirstNl (pyStrip block)).1) = "assistant".data then
          some ⟨pyStrip (stripRoleTags (splitFirstNl (pyStrip block)).1), content⟩
        else none
      else none

/-- `parse_context_to_messages`. -/
def parse_context_to_messages (context_string : Str) : List Message :=
  if pyStrip context_string = [] then []
  else (splitSep (pyStrip context_string)).filterMap parseBlock

/-- Concatenation of block cores with the two-newline separator between
consecutive cores (the inverse image of `splitSep`). -/
def joinSep : List Str → Str
  | [] => []
  | [x] => x
  | x :: xs => x ++ '\n' :: '\n' :: joinSep xs

/-- One call against the context store, as dispatched by the handlers. -/
inductive Op where
  | get : Int → Op
  | add : Int → Str → Str → Op
  | clear : Int → Op

/-- The effect of one store call on the `user_contexts` table. -/
def applyOp (t : ContextTable) : Op → ContextTable
  | Op.get u => (get_context u t).2
  | Op.add u r c => add_to_context u r c t
  | Op.clear u => (clear_user_context u t).2

/-- The table after a sequence of store calls. -/
def runOps (ops : List Op) (t : ContextTable) : ContextTable :=
  ops.foldl applyOp t

/-- A blob made of zero or more complete rendered blocks. -/
def WellFormedBlob (b : Str) : Prop :=
  ∃ recs : List (Str × Str), b = (recs.map (fun rc => renderBlock rc.1 rc.2)).flatten

/-- Every id present in the table maps to a well-formed blob. -/
def TableWellFormed (t : ContextTable) : Prop :=
  ∀ u b, t u = some b → WellFormedBlob b

/-- State-passing embedding of `parse_context_to_messages` threading the
`user_contexts` table through the call: the body of the source function
references only its local variables — it never reads or writes the table —
so the table passes through unchanged. -/
def parse_context_to_messages_st (context_string : Str) (t : ContextTable) :
    List Message × ContextTable :=
  (parse_context_to_messages context_string, t)

/-- The rendered block without its trailing separator:
`"role: " + role + "\n" + content`. -/
def core (m : Message) : Str := "role: ".data ++ m.role ++ '\n' :: m.content

/-- The side conditions under which one appended record survives the
round trip: a recognized role tag, and a non-empty content that contains no
block separator, does not start with a newline, and does not end with a
whitespace character. -/
def GoodMsg (m : Message) : Prop :=
  (m.role = "user".data ∨ m.role = "assistant".data) ∧
  m.content ≠ [] ∧ hasSep m.content = false ∧
  m.content.head? ≠ some '\n' ∧
  m.content.getLast?.all (fun z => !pyIsSpace z) = true

instance (m : Message) : Decidable (GoodMsg m) := by
  unfold GoodMsg
  infer_instance

/-- Calling `add_to_context` once per record, in order. -/
def addAll (uid : Int) (msgs : List Message) (t : ContextTable) : ContextTable :=
  msgs.foldl (fun tbl m => add_to_context uid m.role m.content tbl) t

theorem stripLeft_cons_of_not {a : Char} {l : Str} (h : pyIsSpace a = false) :
    stripLeft (a :: l) = a :: l := by
  simp [stripLeft, List.dropWhile_cons, h]

theorem stripRight_append_ws {l t : Str} (h : ∀ c ∈ t, pyIsSpace c = true) :
    stripRight (l ++ t) = stripRight l := by
  unfold stripRight
  rw [List.reverse_append, List.dropWhile_append_of_pos]
  intro a ha
  exact h a (List.mem_reverse.mp ha)

theorem stripRight_eq_self {l : Str} {c : Char} (hl : l.getLast? = some c)
    (hc : pyIsSpace c = false) : stripRight l = l := by
  have hrev : l.reverse.head? = some c := by rw [List.head?_reverse]; exact hl
  cases hr : l.reverse with
  | nil => rw [hr] at hrev; cases hrev
  | cons a r =>
    rw [hr] at hrev
    have hac : a = c := by cases hrev; rfl
    have hna : ¬ pyIsSpace a = true := by rw [hac, hc]; exact Bool.false_ne_true
    have h1 : List.dropWhile pyIsSpace l.reverse = l.reverse := by
      rw [hr]; exact List.dropWhile_cons_of_neg hna
    unfold stripRight
    rw [h1, List.reverse_reverse]

theorem pyStrip_eq_self {l : Str} {a c : Char} (hh : l.head? = some a)
    (ha : pyIsSpace a = false) (hl : l.getLast? = some c)
    (hc : pyIsSpace c = false) : pyStrip l = l := by
  unfold pyStrip
  rw [stripRight_eq_self hl hc]
  cases l with
  | nil => cases hh
  | cons x xs =>
    have hax : x = a := by cases hh; rfl
    exact stripLeft_cons_of_not (hax ▸ ha)

theorem stripRight_getLast?_not_ws {l : Str} {z : Char}
    (h : (stripRight l).getLast? = some z) : pyIsSpace z = false := by
  unfold stripRight at h
  rw [List.getLast?_reverse] at h
  have := List.head?_dropWhile_not pyIsSpace l.reverse
  rw [h] at this
  exact this

theorem getLast?_some_ne_nil {l : Str} {z : Char} (h : l.getLast? = some z) :
    l ≠ [] := by
  cases l with
  | nil => cases h
  | cons a r => exact List.cons_ne_nil a r

theorem pyStrip_getLast?_not_ws {l : Str} {z : Char}
    (h : (pyStrip l).getLast? = some z) : pyIsSpace z = false := by
  unfold pyStrip stripLeft at h
  obtain ⟨t, ht⟩ := List.dropWhile_suffix (l := stripRight l) (p := pyIsSpace)
  apply stripRight_getLast?_not_ws (l := l)
  rw [← ht, List.getLast?_append_of_ne_nil _ (getLast?_some_ne_nil h)]
  exact h

theorem splitFirstNl_append : ∀ (x y : Str), '\n' ∉ x →
    splitFirstNl (x ++ '\n' :: y) = (x, some y)
  | [], y, _ => by simp [splitFirstNl]
  | a :: x', y, h => by
    have ha : a ≠ '\n' := fun e => h (e ▸ List.mem_cons_self a x')
    have ih := splitFirstNl_append x' y (fun e => h (List.mem_cons_of_mem a e))
    simp [splitFirstNl, ha, ih]

theorem splitFirstNl_eq_some : ∀ (l a b : Str), splitFirstNl l = (a, some b) →
    l = a ++ '\n' :: b
  | [], a, b, h => by simp [splitFirstNl] at h
  | c :: rest, a, b, h => by
    by_cases hc : c = '\n'
    · simp [splitFirstNl, hc] at h
      obtain ⟨ha, hb⟩ := h
      simp [← ha, hc, hb]
    · rcases hsp : splitFirstNl rest with ⟨a', ob⟩
      rw [splitFirstNl, if_neg hc, hsp] at h
      have h1 : c :: a' = a := congrArg Prod.fst h
      have h2 : ob = some b := congrArg Prod.snd h
      have ih := splitFirstNl_eq_some rest a' b (by rw [hsp, h2])
      rw [← h1, ih]
      rfl

theorem hasSep_cons_cons (a b : Char) (l : Str) :
    hasSep (a :: b :: l) = ((a = '\n' && b = '\n') || hasSep (b :: l)) := rfl

theorem hasSep_cons_of_ne {a : Char} (l : Str) (h : a ≠ '\n') :
    hasSep (a :: l) = hasSep l := by
  cases l with
  | nil => rfl
  | cons b t => simp [hasSep_cons_cons, h]

theorem hasSep_append_no_nl : ∀ (pre l : Str), '\n' ∉ pre →
    hasSep (pre ++ l) = hasSep l
  | [], l, _ => rfl
  | a :: pre', l, h => by
    have ha : a ≠ '\n' := fun e => h (e ▸ List.mem_cons_self a pre')
    have ih := hasSep_append_no_nl pre' l (fun e => h (List.mem_cons_of_mem a e))
    rw [List.cons_append, hasSep_cons_of_ne _ ha, ih]

theorem hasSep_of_no_nl (l : Str) (h : '\n' ∉ l) : hasSep l = false := by
  have := hasSep_append_no_nl l [] h
  rwa [List.append_nil] at this

theorem hasSep_append_false : ∀ (x y : Str), hasSep x = false → hasSep y = false →
    (x.getLast? ≠ some '\n' ∨ y.head? ≠ some '\n') → hasSep (x ++ y) = false
  | [], y, _, hy, _ => hy
  | [a], y, _, hy, hj => by
    cases y with
    | nil => rfl
    | cons b t =>
      rw [List.singleton_append, hasSep_cons_cons, hy, Bool.or_false]
      rcases hj with hj | hj
      · have : a ≠ '\n' := fun e => hj (by rw [e]; rfl)
        simp [this]
      · have : b ≠ '\n' := fun e => hj (by rw [e]; rfl)
        simp [this]
  | a :: b :: r, y, hx, hy, hj => by
    rw [hasSep_cons_cons] at hx
    have hab : (a = '\n' && b = '\n') = false :=
      Bool.eq_false_iff.mpr fun e => by rw [e] at hx; cases hx
    have hbr : hasSep (b :: r) = false :=
      Bool.eq_false_iff.mpr fun e => by rw [e, Bool.or_true] at hx; cases hx
    have hj' : (b :: r).getLast? ≠ some '\n' ∨ y.head? ≠ some '\n' := by
      rcases hj with hj | hj
      · exact Or.inl (by rwa [List.getLast?_cons_cons] at hj)
      · exact Or.inr hj
    have ih := hasSep_append_false (b :: r) y hbr hy hj'
    rw [List.cons_append, List.cons_append, hasSep_cons_cons, ← List.cons_append, ih,
      hab, Bool.or_false]

theorem hasSep_of_append_left : ∀ (x y : Str), hasSep (x ++ y) = false →
    hasSep x = false
  | [], _, _ => rfl
  | [_], _, _ => rfl
  | a :: b :: r, y, h => by
    rw [List.cons_append, List.cons_append, hasSep_cons_cons, ← List.cons_append] at h
    have hab : (a = '\n' && b = '\n') = false :=
      Bool.eq_false_iff.mpr fun e => by rw [e] at h; cases h
    have hbr : hasSep ((b :: r) ++ y) = false :=
      Bool.eq_false_iff.mpr fun e => by rw [e, Bool.or_true] at h; cases h
    rw [hasSep_cons_cons, hab, Bool.false_or]
    exact hasSep_of_append_left (b :: r) y hbr

theorem splitSep_ne_nil : ∀ (l : Str), splitSep l ≠ []
  | [] => by simp [splitSep]
  | [c] => by simp [splitSep]
  | a :: b :: rest => by
    rw [splitSep]
    split
    · exact List.cons_ne_nil _ _
    · exact List.cons_ne_nil _ _

theorem splitSep_of_not_hasSep : ∀ (x : Str), hasSep x = false → splitSep x = [x]
  | [], _ => rfl
  | [_], _ => rfl
  | a :: b :: rest, h => by
    rw [hasSep_cons_cons] at h
    have hab : ¬(a = '\n' ∧ b = '\n') := by
      intro ⟨e1, e2⟩
      rw [e1, e2] at h
      simp at h
    have hbr : hasSep (b :: rest) = false :=
      Bool.eq_false_iff.mpr fun e => by rw [e, Bool.or_true] at h; cases h
    have ih := splitSep_of_not_hasSep (b :: rest) hbr
    rw [splitSep, if_neg hab, ih]
    rfl

theorem splitSep_append_sep : ∀ (x y : Str), hasSep (x ++ ['\n']) = false →
    splitSep (x ++ '\n' :: '\n' :: y) = x :: splitSep y
  | [], y, _ => by
    rw [List.nil_append, splitSep, if_pos ⟨rfl, rfl⟩]
  | [c], y, h => by
    rw [List.singleton_append, hasSep_cons_cons] at h
    have hc : ¬(c = '\n' ∧ '\n' = '\n') := by
      intro ⟨e1, _⟩
      rw [e1] at h
      simp at h
    rw [List.singleton_append, splitSep, if_neg hc, splitSep, if_pos ⟨rfl, rfl⟩]
    rfl
  | a :: b :: rest, y, h => by
    rw [List.cons_append, List.cons_append, hasSep_cons_cons] at h
    have hab : ¬(a = '\n' ∧ b = '\n') := by
      intro ⟨e1, e2⟩
      rw [e1, e2] at h
      simp at h
    have hbr : hasSep ((b :: rest) ++ ['\n']) = false := by
      rw [List.cons_append]
      cases hv : hasSep (b :: (rest ++ ['\n'])) with
      | false => rfl
      | true => rw [hv, Bool.or_true] at h; cases h
    have ih := splitSep_append_sep (b :: rest) y hbr
    rw [List.cons_append] at ih
    show splitSep (a :: b :: (rest ++ '\n' :: '\n' :: y)) = (a :: b :: rest) :: splitSep y
    rw [splitSep, if_neg hab, ih]
    rfl

theorem joinSep_cons_cons (x y : Str) (r : List Str) :
    joinSep (x :: y :: r) = x ++ '\n' :: '\n' :: joinSep (y :: r) := rfl

theorem splitSep_joinSep : ∀ (cores : List Str), cores ≠ [] →
    (∀ cr ∈ cores, hasSep (cr ++ ['\n']) = false) →
    splitSep (joinSep cores) = cores
  | [], h, _ => absurd rfl h
  | [x], _, hall => by
    have hx : hasSep x = false :=
      hasSep_of_append_left x ['\n'] (hall x (List.mem_singleton.mpr rfl))
    rw [joinSep, splitSep_of_not_hasSep x hx]
  | x :: y :: r, _, hall => by
    have hx := hall x (List.mem_cons_self x (y :: r))
    have ih := splitSep_joinSep (y :: r) (List.cons_ne_nil y r)
      (fun cr hcr => hall cr (List.mem_cons_of_mem x hcr))
    rw [joinSep_cons_cons, splitSep_append_sep x (joinSep (y :: r)) hx, ih]

theorem head?_append_left {x y : Str} (h : x ≠ []) : (x ++ y).head? = x.head? := by
  cases x with
  | nil => exact absurd rfl h
  | cons a r => rfl

theorem joinSep_cons_shape (x : Str) (xs : List Str) :
    ∃ w, joinSep (x :: xs) = x ++ w := by
  cases xs with
  | nil => exact ⟨[], (List.append_nil x).symm⟩
  | cons y r => exact ⟨'\n' :: '\n' :: joinSep (y :: r), rfl⟩

theorem joinSep_head? {x : Str} (xs : List Str) (h : x ≠ []) :
    (joinSep (x :: xs)).head? = x.head? := by
  obtain ⟨w, hw⟩ := joinSep_cons_shape x xs
  rw [hw, head?_append_left h]

theorem joinSep_getLast?_concat : ∀ (cs : List Str) (x : Str), x ≠ [] →
    (joinSep (cs ++ [x])).getLast? = x.getLast?
  | [], x, _ => rfl
  | a :: cs', x, hx => by
    have ih := joinSep_getLast?_concat cs' x hx
    cases hcx : cs' ++ [x] with
    | nil => exact absurd hcx (by simp)
    | cons y r =>
      rw [List.cons_append, hcx, joinSep_cons_cons,
        List.getLast?_append_of_ne_nil _ (List.cons_ne_nil _ _)]
      have hJ : joinSep (y :: r) ≠ [] := by
        have hsome : (joinSep (y :: r)).getLast? = x.getLast? := by rw [← hcx]; exact ih
        have : x.getLast? = some (x.getLast hx) := List.getLast?_eq_getLast_of_ne_nil hx
        exact getLast?_some_ne_nil (by rw [hsome, this])
      rw [show ('\n' :: '\n' :: joinSep (y :: r)) = ['\n', '\n'] ++ joinSep (y :: r)
          from rfl,
        List.getLast?_append_of_ne_nil _ hJ, ← hcx]
      exact ih

theorem isPrefixOf_append_self : ∀ (x y : Str), x.isPrefixOf (x ++ y) = true
  | [], _ => by simp [List.isPrefixOf]
  | a :: x', y => by
    rw [List.cons_append]
    simp [List.isPrefixOf, isPrefixOf_append_self x' y]

/-- What `parseBlock` does on a block of the shape
`header ++ "\n" ++ content ++ trailing-whitespace`: the block-level strip
removes the trailing whitespace, the header is split off at the first
newline, and the role tag is computed from the header. -/
theorem parseBlock_shape (hdr c0 t : Str) (hh : Char)
    (hhd : hdr.head? = some hh) (hws : pyIsSpace hh = false)
    (hnl : '\n' ∉ hdr)
    (hc0 : c0 ≠ []) (hlast : ∀ z, c0.getLast? = some z → pyIsSpace z = false)
    (ht : ∀ z ∈ t, pyIsSpace z = true) :
    parseBlock (hdr ++ '\n' :: (c0 ++ t)) =
      if "role: ".data.isPrefixOf hdr then
        if pyStrip (stripRoleTags hdr) = "user".data ∨
           pyStrip (stripRoleTags hdr) = "assistant".data then
          some ⟨pyStrip (stripRoleTags hdr), c0⟩
        else none
      else none := by
  obtain ⟨z, hz⟩ : ∃ z, c0.getLast? = some z := by
    cases c0 with
    | nil => exact absurd rfl hc0
    | cons a r => exact ⟨_, List.getLast?_eq_getLast_of_ne_nil (List.cons_ne_nil a r)⟩
  have hstrip : pyStrip (hdr ++ '\n' :: (c0 ++ t)) = hdr ++ '\n' :: c0 := by
    have e1 : hdr ++ '\n' :: (c0 ++ t) = (hdr ++ '\n' :: c0) ++ t := by simp
    rw [e1]
    unfold pyStrip
    rw [stripRight_append_ws ht]
    have hl2 : (hdr ++ '\n' :: c0).getLast? = some z := by
      rw [List.getLast?_append_of_ne_nil _ (List.cons_ne_nil _ _),
        show ('\n' :: c0) = ['\n'] ++ c0 from rfl,
        List.getLast?_append_of_ne_nil _ hc0]
      exact hz
    rw [stripRight_eq_self hl2 (hlast z hz)]
    cases hd : hdr with
    | nil => rw [hd] at hhd; cases hhd
    | cons a r =>
      rw [hd] at hhd
      have hah : a = hh := by cases hhd; rfl
      rw [List.cons_append]
      exact stripLeft_cons_of_not (hah ▸ hws)
  have hne : hdr ++ '\n' :: c0 ≠ [] := by simp
  unfold parseBlock
  rw [hstrip, if_neg hne, splitFirstNl_append hdr c0 hnl]

/-- The parser on a non-blank input is the block loop over the separator
split of the stripped input. -/
theorem parse_eq_filterMap (s : Str) (h : pyStrip s ≠ []) :
    parse_context_to_messages s = (splitSep (pyStrip s)).filterMap parseBlock := by
  unfold parse_context_to_messages
  rw [if_neg h]

theorem mem_parse {s : Str} {m : Message} (h : m ∈ parse_context_to_messages s) :
    ∃ b ∈ splitSep (pyStrip s), parseBlock b = some m := by
  unfold parse_context_to_messages at h
  by_cases he : pyStrip s = []
  · rw [if_pos he] at h
    cases h
  · rw [if_neg he] at h
    exact List.mem_filterMap.mp h

/-- Inversion for the block loop: an emitted message has a recognized role
tag and its content is the remainder of the stripped block after the first
newline. -/
theorem parseBlock_some {b : Str} {m : Message} (h : parseBlock b = some m) :
    (m.role = "user".data ∨ m.role = "assistant".data) ∧
    (splitFirstNl (pyStrip b)).2 = some m.content := by
  unfold parseBlock at h
  by_cases he : pyStrip b = []
  · rw [if_pos he] at h
    cases h
  · rw [if_neg he] at h
    cases hoc : (splitFirstNl (pyStrip b)).2 with
    | none => rw [hoc] at h; cases h
    | some content =>
      rw [hoc] at h
      dsimp only at h
      by_cases h1 : "role: ".data.isPrefixOf (splitFirstNl (pyStrip b)).1
      · rw [if_pos h1] at h
        by_cases h2 : pyStrip (stripRoleTags (splitFirstNl (pyStrip b)).1) = "user".data ∨
            pyStrip (stripRoleTags (splitFirstNl (pyStrip b)).1) = "assistant".data
        · rw [if_pos h2] at h
          have hm := Option.some.inj h
          constructor
          · rw [← hm]
            exact h2
          · rw [← hm]
        · rw [if_neg h2] at h
          cases h
      · rw [if_neg h1] at h
        cases h

theorem get_context_none {u : Int} {t : ContextTable} (h : t u = none) :
    get_context u t = ([], setCtx t u []) := by
  unfold get_context
  rw [h]

theorem get_context_some {u : Int} {t : ContextTable} {b : Str} (h : t u = some b) :
    get_context u t = (b, t) := by
  unfold get_context
  rw [h]

theorem clear_context_none {u : Int} {t : ContextTable} (h : t u = none) :
    clear_user_context u t = (false, t) := by
  unfold clear_user_context
  rw [h]

theorem clear_context_some {u : Int} {t : ContextTable} {b : Str} (h : t u = some b) :
    clear_user_context u t = (true, setCtx t u []) := by
  unfold clear_user_context
  rw [h]

theorem wf_empty : TableWellFormed emptyContexts :=
  fun _ _ h => Option.noConfusion h

theorem wf_nil : WellFormedBlob [] := ⟨[], rfl⟩

theorem wf_append (b r c : Str) (h : WellFormedBlob b) :
    WellFormedBlob (b ++ renderBlock r c) := by
  obtain ⟨recs, hr⟩ := h
  refine ⟨recs ++ [(r, c)], ?_⟩
  rw [hr]
  simp

theorem wf_setCtx (t : ContextTable) (u : Int) (b : Str)
    (ht : TableWellFormed t) (hb : WellFormedBlob b) :
    TableWellFormed (setCtx t u b) := by
  intro v b' h
  unfold setCtx at h
  by_cases hv : v = u
  · rw [if_pos hv] at h
    rw [← Option.some.inj h]
    exact hb
  · rw [if_neg hv] at h
    exact ht v b' h

theorem wf_applyOp (t : ContextTable) (op : Op) (ht : TableWellFormed t) :
    TableWellFormed (applyOp t op) := by
  cases op with
  | get u =>
    show TableWellFormed (get_context u t).2
    cases h : t u with
    | none =>
      rw [get_context_none h]
      exact wf_setCtx t u [] ht wf_nil
    | some b =>
      rw [get_context_some h]
      exact ht
  | add u r c =>
    show TableWellFormed (add_to_context u r c t)
    unfold add_to_context
    apply wf_setCtx _ _ _ ht
    cases h : t u with
    | none => exact wf_append [] r c wf_nil
    | some b => exact wf_append b r c (ht u b h)
  | clear u =>
    show TableWellFormed (clear_user_context u t).2
    cases h : t u with
    | none =>
      rw [clear_context_none h]
      exact ht
    | some b =>
      rw [clear_context_some h]
      exact wf_setCtx t u [] ht wf_nil

theorem wf_runOps : ∀ (ops : List Op) (t : ContextTable),
    TableWellFormed t → TableWellFormed (runOps ops t)
  | [], _, ht => ht
  | op :: ops, t, ht => wf_runOps ops (applyOp t op) (wf_applyOp t op ht)

/-- C5: after any sequence of `get_context`, `add_to_context` and
`clear_user_context` calls (for arbitrary role and content strings) starting
from the empty table, every user id present in the context table maps to a
blob consisting of zero or more complete rendered blocks — never a partial
block. -/
theorem blob_well_formed_invariant :
    ∀ (ops : List Op) (u : Int) (b : Str),
      runOps ops emptyContexts u = some b → WellFormedBlob b :=
  fun ops u b h => wf_runOps ops emptyContexts wf_empty u b h

theorem blob_well_formed_invariant_witness :
    WellFormedBlob "role: user\nhi\n\n".data :=
  blob_well_formed_invariant [Op.add 1 "user".data "hi".data] 1
    "role: user\nhi\n\n".data (by decide)

/-- C4: `clear_user_context` on an absent id returns false, creates no
entry, a following `get_context` returns the empty string and a following
`clear_user_context` still returns false; on an id with a non-empty
transcript it returns true and leaves the id mapped to the empty string. -/
theorem clear_semantics :
    ∀ (u : Int) (t : ContextTable),
      (t u = none →
        (clear_user_context u t).1 = false ∧
        (clear_user_context u t).2 = t ∧
        (get_context u (clear_user_context u t).2).1 = [] ∧
        (clear_user_context u (clear_user_context u t).2).1 = false) ∧
      (∀ b, t u = some b → b ≠ [] →
        (clear_user_context u t).1 = true ∧
        (clear_user_context u t).2 u = some []) := by
  intro u t
  constructor
  · intro h
    have hc := clear_context_none h
    refine ⟨by rw [hc], by rw [hc], ?_, ?_⟩
    · rw [hc]
      show (get_context u t).1 = []
      rw [get_context_none h]
    · rw [hc]
      show (clear_user_context u t).1 = false
      rw [clear_context_none h]
  · intro b hb _
    have hc := clear_context_some hb
    refine ⟨by rw [hc], ?_⟩
    rw [hc]
    show setCtx t u [] u = some []
    unfold setCtx
    rw [if_pos rfl]

theorem clear_semantics_witness :
    ((clear_user_context 7 emptyContexts).1 = false ∧
     (clear_user_context 7 emptyContexts).2 = emptyContexts ∧
     (get_context 7 (clear_user_context 7 emptyContexts).2).1 = [] ∧
     (clear_user_context 7 (clear_user_context 7 emptyContexts).2).1 = false) ∧
    ((clear_user_context 1 (setCtx emptyContexts 1 "role: user\nhi\n\n".data)).1 = true ∧
     (clear_user_context 1 (setCtx emptyContexts 1 "role: user\nhi\n\n".data)).2 1
        = some []) :=
  ⟨(clear_semantics 7 emptyContexts).1 rfl,
   (clear_semantics 1 (setCtx emptyContexts 1 "role: user\nhi\n\n".data)).2
     "role: user\nhi\n\n".data (by decide) (by decide)⟩

/-- C7: `add_to_context` appends exactly the rendered block
`"role: " + role + "\n" + content + "\n\n"` to the end of the user's
existing blob, leaving the prior blob as an unchanged prefix; for an
unknown id the prior blob is the empty string. -/
theorem append_block_exact :
    ∀ (u : Int) (r c : Str) (t : ContextTable),
      (∀ b, t u = some b → add_to_context u r c t u = some (b ++ renderBlock r c)) ∧
      (t u = none → add_to_context u r c t u = some (renderBlock r c)) := by
  intro u r c t
  constructor
  · intro b hb
    unfold add_to_context setCtx
    rw [if_pos rfl, hb]
    rfl
  · intro h
    unfold add_to_context setCtx
    rw [if_pos rfl, h]
    rfl

theorem append_block_exact_witness :
    add_to_context 5 "user".data "hi".data (setCtx emptyContexts 5 "X".data) 5
        = some ("X".data ++ renderBlock "user".data "hi".data) ∧
    add_to_context 5 "user".data "hi".data emptyContexts 5
        = some (renderBlock "user".data "hi".data) :=
  ⟨(append_block_exact 5 "user".data "hi".data
      (setCtx emptyContexts 5 "X".data)).1 "X".data (by decide),
   (append_block_exact 5 "user".data "hi".data emptyContexts).2 rfl⟩

/-- C8: operations on user A neither read nor write user B's entry: the
entry of B is untouched by all three operations on A, and the values
returned for A depend only on A's own entry. -/
theorem user_isolation :
    ∀ (A B : Int) (r c : Str) (t t' : ContextTable), A ≠ B → t A = t' A →
      (get_context A t).2 B = t B ∧
      add_to_context A r c t B = t B ∧
      (clear_user_context A t).2 B = t B ∧
      (get_context A t).1 = (get_context A t').1 ∧
      (clear_user_context A t).1 = (clear_user_context A t').1 := by
  intro A B r c t t' hAB hAA
  have hBA : B ≠ A := fun e => hAB e.symm
  refine ⟨?_, ?_, ?_, ?_, ?_⟩
  · cases h : t A with
    | none =>
      rw [get_context_none h]
      show setCtx t A [] B = t B
      unfold setCtx
      rw [if_neg hBA]
    | some b => rw [get_context_some h]
  · show setCtx t A ((t A).getD [] ++ renderBlock r c) B = t B
    unfold setCtx
    rw [if_neg hBA]
  · cases h : t A with
    | none => rw [clear_context_none h]
    | some b =>
      rw [clear_context_some h]
      show setCtx t A [] B = t B
      unfold setCtx
      rw [if_neg hBA]
  · unfold get_context
    rw [hAA]
    cases t' A <;> rfl
  · unfold clear_user_context
    rw [hAA]
    cases t' A <;> rfl

theorem user_isolation_witness :
    (get_context 1 emptyContexts).2 2 = emptyContexts 2 ∧
    add_to_context 1 "user".data "hi".data emptyContexts 2 = emptyContexts 2 ∧
    (clear_user_context 1 emptyContexts).2 2 = emptyContexts 2 ∧
    (get_context 1 emptyContexts).1
      = (get_context 1 (setCtx emptyContexts 2 "Z".data)).1 ∧
    (clear_user_context 1 emptyContexts).1
      = (clear_user_context 1 (setCtx emptyContexts 2 "Z".data)).1 :=
  user_isolation 1 2 "user".data "hi".data emptyContexts
    (setCtx emptyContexts 2 "Z".data) (by decide) (by decide)

/-- C9: the parser is deterministic and side-effect-free: runs from any two
table states return the same output list, the table is returned unchanged,
and the output is the value of the pure function of the input string. -/
theorem parse_pure_deterministic :
    ∀ (s : Str) (t t' : ContextTable),
      (parse_context_to_messages_st s t).1 = (parse_context_to_messages_st s t').1 ∧
      (parse_context_to_messages_st s t).2 = t ∧
      (parse_context_to_messages_st s t).1 = parse_context_to_messages s :=
  fun _ _ _ => ⟨rfl, rfl, rfl⟩

/-- C6: every message emitted by the parser carries role `"user"` or
`"assistant"`; blocks with tags `"system"`, `"ROLE"` or the empty tag are
excluded, as is a block with only a header line — all silently. -/
theorem filtering_policy :
    (∀ (s : Str) (m : Message), m ∈ parse_context_to_messages s →
      m.role = "user".data ∨ m.role = "assistant".data) ∧
    parse_context_to_messages "role: system\nhello\n\n".data = [] ∧
    parse_context_to_messages "role: ROLE\nhello\n\n".data = [] ∧
    parse_context_to_messages "role: \nhello\n\n".data = [] ∧
    parse_context_to_messages "role: user\n\n".data = [] := by
  refine ⟨?_, by decide, by decide, by decide, by decide⟩
  intro s m hm
  obtain ⟨b, _, hb⟩ := mem_parse hm
  exact (parseBlock_some hb).1

theorem filtering_policy_witness :
    (⟨"user".data, "hi".data⟩ : Message).role = "user".data ∨
    (⟨"user".data, "hi".data⟩ : Message).role = "assistant".data :=
  filtering_policy.1 "role: user\nhi\n\n".data ⟨"user".data, "hi".data⟩ (by decide)

/-- C10: every emitted content ends in a non-whitespace character (when it
has a last character at all): the block is whitespace-stripped before the
header is split off, so trailing spaces, tabs or newlines never survive. -/
theorem content_no_trailing_whitespace :
    ∀ (s : Str) (m : Message), m ∈ parse_context_to_messages s →
      ∀ z, m.content.getLast? = some z → pyIsSpace z = false := by
  intro s m hm z hz
  obtain ⟨b, _, hb⟩ := mem_parse hm
  have h2 := (parseBlock_some hb).2
  rcases hsp : splitFirstNl (pyStrip b) with ⟨hdr, oc⟩
  rw [hsp] at h2
  have h2' : oc = some m.content := h2
  have heq := splitFirstNl_eq_some (pyStrip b) hdr m.content (by rw [hsp, h2'])
  have hlast : (pyStrip b).getLast? = some z := by
    rw [heq, List.getLast?_append_of_ne_nil _ (List.cons_ne_nil _ _),
      show ('\n' :: m.content) = ['\n'] ++ m.content from rfl,
      List.getLast?_append_of_ne_nil _ (getLast?_some_ne_nil hz)]
    exact hz
  exact pyStrip_getLast?_not_ws hlast

theorem content_no_trailing_whitespace_witness : pyIsSpace 'i' = false :=
  content_no_trailing_whitespace "role: user\nhi\n\n".data
    ⟨"user".data, "hi".data⟩ (by decide) 'i' (by decide)

theorem head?_some_ne_nil {l : Str} {a : Char} (h : l.head? = some a) : l ≠ [] := by
  cases l with
  | nil => cases h
  | cons x r => exact List.cons_ne_nil x r

theorem stripLeft_eq_self {l : Str} {a : Char} (h : l.head? = some a)
    (ha : pyIsSpace a = false) : stripLeft l = l := by
  cases l with
  | nil => cases h
  | cons x r =>
    have hx : x = a := by cases h; rfl
    exact stripLeft_cons_of_not (hx ▸ ha)

theorem getLast_not_ws_of_all {c : Str}
    (h : c.getLast?.all (fun z => !pyIsSpace z) = true) {z : Char}
    (hz : c.getLast? = some z) : pyIsSpace z = false := by
  rw [hz] at h
  have h' : (!pyIsSpace z) = true := h
  cases hb : pyIsSpace z with
  | false => rfl
  | true => rw [hb] at h'; cases h'

theorem add_to_context_at (u : Int) (r c : Str) (t : ContextTable) :
    add_to_context u r c t u = some ((t u).getD [] ++ renderBlock r c) := by
  unfold add_to_context setCtx
  rw [if_pos rfl]

theorem core_ne_nil (m : Message) : core m ≠ [] :=
  head?_some_ne_nil (l := core m) (a := 'r') rfl

theorem core_getLast? (m : Message) (h : m.content ≠ []) :
    (core m).getLast? = m.content.getLast? := by
  unfold core
  rw [List.getLast?_append_of_ne_nil _ (List.cons_ne_nil '\n' m.content),
    show ('\n' :: m.content) = ['\n'] ++ m.content from rfl,
    List.getLast?_append_of_ne_nil _ h]

theorem role_no_nl {m : Message}
    (hrole : m.role = "user".data ∨ m.role = "assistant".data) :
    '\n' ∉ "role: ".data ++ m.role := by
  intro hmem
  rcases List.mem_append.mp hmem with h | h
  · exact absurd h (by decide)
  · rcases hrole with hr | hr
    · rw [hr] at h
      exact absurd h (by decide)
    · rw [hr] at h
      exact absurd h (by decide)

theorem core_no_sep (m : Message) (hm : GoodMsg m) :
    hasSep (core m ++ ['\n']) = false := by
  obtain ⟨hrole, hne, hsep, hhd, hall⟩ := hm
  have e : core m ++ ['\n']
      = ("role: ".data ++ m.role) ++ ('\n' :: (m.content ++ ['\n'])) := by
    unfold core
    simp
  rw [e, hasSep_append_no_nl _ _ (role_no_nl hrole)]
  cases hc : m.content with
  | nil => exact absurd hc hne
  | cons d c' =>
    rw [List.cons_append, hasSep_cons_cons]
    have hd : d ≠ '\n' := by
      intro e2
      apply hhd
      rw [hc, e2]
      rfl
    have h1 : hasSep ((d :: c') ++ ['\n']) = false := by
      apply hasSep_append_false
      · rw [← hc]
        exact hsep
      · rfl
      · left
        intro hl
        have hlc : m.content.getLast? = some '\n' := by rw [hc]; exact hl
        have := getLast_not_ws_of_all hall hlc
        exact absurd this (by decide)
    rw [List.cons_append] at h1
    rw [h1]
    simp [hd]

theorem renderBlock_eq_core (m : Message) :
    renderBlock m.role m.content = core m ++ '\n' :: '\n' :: [] := by
  unfold renderBlock core
  simp

theorem flatten_renderBlocks : ∀ (m : Message) (msgs : List Message),
    ((m :: msgs).map (fun x => renderBlock x.role x.content)).flatten
      = joinSep ((m :: msgs).map core) ++ '\n' :: '\n' :: []
  | m, [] => by
    simp [joinSep, renderBlock_eq_core]
  | m, m' :: rest => by
    have ih := flatten_renderBlocks m' rest
    rw [List.map_cons, List.flatten_cons, ih, renderBlock_eq_core,
      show List.map core (m :: m' :: rest) = core m :: core m' :: List.map core rest
        from rfl,
      joinSep_cons_cons]
    simp

theorem addAll_entry_some : ∀ (msgs : List Message) (uid : Int) (t : ContextTable)
    (b : Str), t uid = some b →
    addAll uid msgs t uid
      = some (b ++ (msgs.map (fun m => renderBlock m.role m.content)).flatten)
  | [], uid, t, b, h => by
    show t uid = _
    rw [h]
    simp
  | m :: rest, uid, t, b, h => by
    have hstep : add_to_context uid m.role m.content t uid
        = some (b ++ renderBlock m.role m.content) := by
      rw [add_to_context_at, h]
      rfl
    have ih := addAll_entry_some rest uid (add_to_context uid m.role m.content t)
      (b ++ renderBlock m.role m.content) hstep
    show addAll uid rest (add_to_context uid m.role m.content t) uid = _
    rw [ih, List.map_cons, List.flatten_cons, ← List.append_assoc]

theorem addAll_entry_cons (uid : Int) (m : Message) (msgs : List Message) :
    addAll uid (m :: msgs) emptyContexts uid
      = some (((m :: msgs).map (fun x => renderBlock x.role x.content)).flatten) := by
  have hstep : add_to_context uid m.role m.content emptyContexts uid
      = some (renderBlock m.role m.content) := by
    rw [add_to_context_at]
    rfl
  have ih := addAll_entry_some msgs uid (add_to_context uid m.role m.content emptyContexts)
    (renderBlock m.role m.content) hstep
  show addAll uid msgs (add_to_context uid m.role m.content emptyContexts) uid = _
  rw [ih, List.map_cons, List.flatten_cons]

theorem filterMap_eq_self {α : Type} {f : α → Option α} :
    ∀ (l : List α), (∀ x ∈ l, f x = some x) → l.filterMap f = l
  | [], _ => rfl
  | a :: l, h => by
    rw [List.filterMap_cons, h a (List.mem_cons_self a l),
      filterMap_eq_self l (fun x hx => h x (List.mem_cons_of_mem a hx))]

theorem parseBlock_core_eq (m : Message) (hm : GoodMsg m) :
    parseBlock (core m) = some m := by
  obtain ⟨hrole, hne, hsep, hhd, hall⟩ := hm
  have hlast := fun z hz => getLast_not_ws_of_all hall (z := z) hz
  have hshape := parseBlock_shape ("role: ".data ++ m.role) m.content [] 'r'
    (by rw [head?_append_left (by decide : "role: ".data ≠ ([] : Str))]; rfl)
    (by decide) (role_no_nl hrole) hne hlast
    (by intro z hz; exact absurd hz (List.not_mem_nil z))
  rw [List.append_nil] at hshape
  have hcore : core m = ("role: ".data ++ m.role) ++ '\n' :: m.content := rfl
  rw [hcore, hshape, if_pos (isPrefixOf_append_self "role: ".data m.role)]
  rcases hrole with hr | hr
  · rw [hr]
    have htag : pyStrip (stripRoleTags ("role: ".data ++ "user".data)) = "user".data := by
      decide
    rw [htag, if_pos (Or.inl rfl), ← hr]
  · rw [hr]
    have htag : pyStrip (stripRoleTags ("role: ".data ++ "assistant".data))
        = "assistant".data := by decide
    rw [htag, if_pos (Or.inr rfl), ← hr]

theorem strip_blob (m : Message) (rest : List Message)
    (h : ∀ x ∈ m :: rest, GoodMsg x) :
    pyStrip (joinSep ((m :: rest).map core) ++ '\n' :: '\n' :: [])
      = joinSep ((m :: rest).map core) := by
  unfold pyStrip
  rw [stripRight_append_ws (by decide)]
  rcases List.eq_nil_or_concat (m :: rest) with hnil | ⟨L, last, hconcat⟩
  · exact absurd hnil (List.cons_ne_nil m rest)
  · have hlastmem : last ∈ m :: rest := by
      rw [hconcat, List.concat_eq_append]
      exact List.mem_concat_self L last
    obtain ⟨_, hne, _, _, hall⟩ := h last hlastmem
    obtain ⟨z, hz⟩ : ∃ z, last.content.getLast? = some z :=
      ⟨_, List.getLast?_eq_getLast_of_ne_nil hne⟩
    have hJlast : (joinSep ((m :: rest).map core)).getLast? = some z := by
      rw [hconcat, List.map_concat, List.concat_eq_append,
        joinSep_getLast?_concat _ _ (core_ne_nil last), core_getLast? last hne]
      exact hz
    rw [stripRight_eq_self hJlast (getLast_not_ws_of_all hall hz)]
    have hhd : (joinSep ((m :: rest).map core)).head? = some 'r' := by
      rw [List.map_cons, joinSep_head? _ (core_ne_nil m)]
      rfl
    exact stripLeft_eq_self hhd (by decide)

/-- C1 amended: the round trip holds when, in addition to the claim's
conditions (recognized role, non-empty content with no block separator),
each content neither starts with a newline nor ends with a whitespace
character. -/
theorem round_trip_amended (uid : Int) (msgs : List Message)
    (h : ∀ x ∈ msgs, GoodMsg x) :
    parse_context_to_messages (get_context uid (addAll uid msgs emptyContexts)).1
      = msgs := by
  cases msgs with
  | nil =>
    show parse_context_to_messages (get_context uid emptyContexts).1 = []
    rw [get_context_none rfl]
    rfl
  | cons m rest =>
    have hentry := addAll_entry_cons uid m rest
    rw [get_context_some hentry]
    show parse_context_to_messages
      (((m :: rest).map (fun x => renderBlock x.role x.content)).flatten) = m :: rest
    rw [flatten_renderBlocks]
    have hstrip := strip_blob m rest h
    have hJne : joinSep ((m :: rest).map core) ≠ [] := by
      apply head?_some_ne_nil (a := 'r')
      rw [List.map_cons, joinSep_head? _ (core_ne_nil m)]
      rfl
    rw [parse_eq_filterMap _ (by rw [hstrip]; exact hJne), hstrip]
    have hsplit := splitSep_joinSep ((m :: rest).map core) (by simp)
      (fun cr hcr => by
        obtain ⟨x, hx, hxe⟩ := List.mem_map.mp hcr
        rw [← hxe]
        exact core_no_sep x (h x hx))
    rw [hsplit, List.filterMap_map]
    exact filterMap_eq_self _ (fun x hx => parseBlock_core_eq x (h x hx))

theorem round_trip_amended_witness :
    parse_context_to_messages
        (get_context 42 (addAll 42
          [⟨"user".data, "Hello".data⟩, ⟨"assistant".data, "Hi there".data⟩]
          emptyContexts)).1
      = [⟨"user".data, "Hello".data⟩, ⟨"assistant".data, "Hi there".data⟩] :=
  round_trip_amended 42
    [⟨"user".data, "Hello".data⟩, ⟨"assistant".data, "Hi there".data⟩] (by decide)

/-- C1 as stated fails: the record ("user", "Hello ") meets every condition
of the claim (recognized role, non-empty content, no block separator), yet
the round trip returns content "Hello" — the trailing space is lost. -/
theorem round_trip_counterexample :
    hasSep "Hello ".data = false ∧ ("Hello ".data : Str) ≠ [] ∧
    parse_context_to_messages
        (get_context 1 (addAll 1 [⟨"user".data, "Hello ".data⟩] emptyContexts)).1
      = [⟨"user".data, "Hello".data⟩] ∧
    parse_context_to_messages
        (get_context 1 (addAll 1 [⟨"user".data, "Hello ".data⟩] emptyContexts)).1
      ≠ [⟨"user".data, "Hello ".data⟩] :=
  ⟨by decide, by decide, by decide, by decide⟩

/-- C2 amended: the role tag is obtained by deleting every occurrence of
the substring `"role: "` from the header line (Python `str.replace`, not a
single prefix removal) and then stripping whitespace; the block is emitted
exactly when the resulting tag is `"user"` or `"assistant"`. -/
theorem role_tag_replace_all (rest c : Str) (hrnl : '\n' ∉ rest) (hcne : c ≠ [])
    (hcsep : hasSep c = false) (hchd : c.head? ≠ some '\n')
    (hclast : c.getLast?.all (fun z => !pyIsSpace z) = true) :
    parse_context_to_messages
        (("role: ".data ++ rest) ++ '\n' :: (c ++ '\n' :: '\n' :: []))
      = if pyStrip (stripRoleTags ("role: ".data ++ rest)) = "user".data ∨
          pyStrip (stripRoleTags ("role: ".data ++ rest)) = "assistant".data
        then [⟨pyStrip (stripRoleTags ("role: ".data ++ rest)), c⟩]
        else [] := by
  have hlast := fun z hz => getLast_not_ws_of_all hclast (z := z) hz
  obtain ⟨z, hz⟩ : ∃ z, c.getLast? = some z :=
    ⟨_, List.getLast?_eq_getLast_of_ne_nil hcne⟩
  have hdrnl : '\n' ∉ "role: ".data ++ rest := by
    intro hmem
    rcases List.mem_append.mp hmem with h | h
    · exact absurd h (by decide)
    · exact hrnl h
  have hassoc : ("role: ".data ++ rest) ++ '\n' :: (c ++ '\n' :: '\n' :: [])
      = (("role: ".data ++ rest) ++ '\n' :: c) ++ '\n' :: '\n' :: [] := by
    simp
  have hcorelast : ((("role: ".data ++ rest) ++ '\n' :: c)).getLast? = some z := by
    rw [List.getLast?_append_of_ne_nil _ (List.cons_ne_nil '\n' c),
      show ('\n' :: c) = ['\n'] ++ c from rfl,
      List.getLast?_append_of_ne_nil _ hcne]
    exact hz
  have hstrip : pyStrip (("role: ".data ++ rest) ++ '\n' :: (c ++ '\n' :: '\n' :: []))
      = ("role: ".data ++ rest) ++ '\n' :: c := by
    rw [hassoc]
    unfold pyStrip
    rw [stripRight_append_ws (by decide), stripRight_eq_self hcorelast (hlast z hz)]
    exact stripLeft_eq_self
      (by rw [head?_append_left (head?_some_ne_nil (a := 'r')
        (by rw [head?_append_left (by decide : "role: ".data ≠ ([] : Str))]; rfl))]
          ; rw [head?_append_left (by decide : "role: ".data ≠ ([] : Str))]; rfl)
      (by decide)
  have hcoresep : hasSep (("role: ".data ++ rest) ++ '\n' :: c) = false := by
    rw [hasSep_append_no_nl _ _ hdrnl]
    cases hc : c with
    | nil => exact absurd hc hcne
    | cons d c' =>
      rw [hasSep_cons_cons]
      have hd : d ≠ '\n' := by
        intro e2
        apply hchd
        rw [hc, e2]
        rfl
      have h1 : hasSep (d :: c') = false := by rw [← hc]; exact hcsep
      rw [h1]
      simp [hd]
  have hJne : ("role: ".data ++ rest) ++ '\n' :: c ≠ [] := by simp
  rw [parse_eq_filterMap _ (by rw [hstrip]; exact hJne), hstrip,
    splitSep_of_not_hasSep _ hcoresep]
  have hshape := parseBlock_shape ("role: ".data ++ rest) c [] 'r'
    (by rw [head?_append_left (by decide : "role: ".data ≠ ([] : Str))]; rfl)
    (by decide) hdrnl hcne hlast
    (by intro z2 hz2; exact absurd hz2 (List.not_mem_nil z2))
  rw [List.append_nil] at hshape
  rw [if_pos (isPrefixOf_append_self "role: ".data rest)] at hshape
  by_cases htag : pyStrip (stripRoleTags ("role: ".data ++ rest)) = "user".data ∨
      pyStrip (stripRoleTags ("role: ".data ++ rest)) = "assistant".data
  · rw [if_pos htag] at hshape
    rw [if_pos htag]
    rw [List.filterMap_cons, hshape]
    rfl
  · rw [if_neg htag] at hshape
    rw [if_neg htag]
    rw [List.filterMap_cons, hshape]
    rfl

theorem role_tag_replace_all_witness :
    parse_context_to_messages
        (("role: ".data ++ "role: user".data) ++ '\n' ::
          ("hello".data ++ '\n' :: '\n' :: []))
      = [⟨"user".data, "hello".data⟩] := by
  rw [role_tag_replace_all "role: user".data "hello".data (by decide) (by decide)
    (by decide) (by decide) (by decide)]
  decide

/-- C2 as stated fails: on the header line "role: role: user" the code's
`replace` removes both occurrences of "role: ", yielding the tag "user",
so the block is emitted as a user message; under the claimed
remove-the-prefix-once reading the tag would be "role: user" and the block
would be dropped, producing the empty list. -/
theorem role_tag_counterexample :
    parse_context_to_messages "role: role: user\nhello\n\n".data
      = [⟨"user".data, "hello".data⟩] ∧
    parse_context_to_messages "role: role: user\nhello\n\n".data ≠ [] :=
  ⟨by decide, by decide⟩

/-- C3 amended: the emitted content is the remainder after the first
newline of the whitespace-stripped block — whitespace trailing the block's
content (here `t`) is removed together with the separator, while internal
structure of the content is preserved. -/
theorem content_after_block_strip (c t : Str) (hcne : c ≠ [])
    (hcsep : hasSep c = false) (hchd : c.head? ≠ some '\n')
    (hclast : c.getLast?.all (fun z => !pyIsSpace z) = true)
    (htws : ∀ z ∈ t, pyIsSpace z = true) (htnl : '\n' ∉ t) :
    parse_context_to_messages
        ((("role: user".data ++ '\n' :: (c ++ t)) ++ '\n' :: '\n' ::
          ("role: user".data ++ '\n' :: "bye".data)) ++ '\n' :: '\n' :: [])
      = [⟨"user".data, c⟩, ⟨"user".data, "bye".data⟩] := by
  have hlast := fun z hz => getLast_not_ws_of_all hclast (z := z) hz
  have hJlast : (("role: user".data ++ '\n' :: (c ++ t)) ++ '\n' :: '\n' ::
      ("role: user".data ++ '\n' :: "bye".data)).getLast? = some 'e' := by
    rw [List.getLast?_append_of_ne_nil _ (List.cons_ne_nil '\n' _),
      show ('\n' :: '\n' :: ("role: user".data ++ '\n' :: "bye".data))
          = ['\n', '\n'] ++ ("role: user".data ++ '\n' :: "bye".data) from rfl,
      List.getLast?_append_of_ne_nil _
        (by decide : ("role: user".data ++ '\n' :: "bye".data) ≠ [])]
    decide
  have hstrip : pyStrip ((("role: user".data ++ '\n' :: (c ++ t)) ++ '\n' :: '\n' ::
      ("role: user".data ++ '\n' :: "bye".data)) ++ '\n' :: '\n' :: [])
      = ("role: user".data ++ '\n' :: (c ++ t)) ++ '\n' :: '\n' ::
        ("role: user".data ++ '\n' :: "bye".data) := by
    unfold pyStrip
    rw [stripRight_append_ws (by decide), stripRight_eq_self hJlast (by decide)]
    exact stripLeft_eq_self (a := 'r') rfl (by decide)
  have htn : hasSep (t ++ ['\n']) = false :=
    hasSep_append_false t ['\n'] (hasSep_of_no_nl t htnl) rfl
      (Or.inl (fun hl => htnl (List.mem_of_getLast?_eq_some hl)))
  have hct : hasSep ((c ++ t) ++ ['\n']) = false := by
    rw [List.append_assoc]
    exact hasSep_append_false c (t ++ ['\n']) hcsep htn
      (Or.inl (fun hl => absurd (hlast '\n' hl) (by decide)))
  have h1 : hasSep (("role: user".data ++ '\n' :: (c ++ t)) ++ ['\n']) = false := by
    have e1 : ("role: user".data ++ '\n' :: (c ++ t)) ++ ['\n']
        = "role: user".data ++ ('\n' :: ((c ++ t) ++ ['\n'])) := by simp
    rw [e1, hasSep_append_no_nl _ _ (by decide)]
    cases hc : c with
    | nil => exact absurd hc hcne
    | cons d c' =>
      have e2 : ((d :: c') ++ t) ++ ['\n'] = d :: ((c' ++ t) ++ ['\n']) := by simp
      rw [e2, hasSep_cons_cons, ← e2, ← hc, hct]
      have hd : d ≠ '\n' := by
        intro e3
        apply hchd
        rw [hc, e3]
        rfl
      simp [hd]
  have hJne : ("role: user".data ++ '\n' :: (c ++ t)) ++ '\n' :: '\n' ::
      ("role: user".data ++ '\n' :: "bye".data) ≠ [] := by simp
  rw [parse_eq_filterMap _ (by rw [hstrip]; exact hJne), hstrip,
    splitSep_append_sep _ _ h1,
    splitSep_of_not_hasSep ("role: user".data ++ '\n' :: "bye".data) (by decide)]
  have hshape := parseBlock_shape "role: user".data c t 'r' rfl (by decide)
    (by decide) hcne hlast htws
  rw [if_pos (by decide : ("role: ".data.isPrefixOf "role: user".data) = true),
    (by decide : pyStrip (stripRoleTags "role: user".data) = "user".data),
    if_pos (Or.inl rfl)] at hshape
  rw [List.filterMap_cons, hshape, List.filterMap_cons,
    (by decide : parseBlock ("role: user".data ++ '\n' :: "bye".data)
      = some ⟨"user".data, "bye".data⟩)]
  rfl

theorem content_after_block_strip_witness :
    parse_context_to_messages
        ((("role: user".data ++ '\n' :: ("hello".data ++ " ".data)) ++ '\n' :: '\n' ::
          ("role: user".data ++ '\n' :: "bye".data)) ++ '\n' :: '\n' :: [])
      = [⟨"user".data, "hello".data⟩, ⟨"user".data, "bye".data⟩] :=
  content_after_block_strip "hello".data " ".data (by decide) (by decide)
    (by decide) (by decide) (by decide) (by decide)

/-- C3 as stated fails: in the blob
"role: user\nhello \n\nrole: user\nbye\n\n" the first block's remainder
after its first newline is "hello " (with a trailing space), but the code
strips each block before splitting, so the emitted content is "hello". -/
theorem content_verbatim_counterexample :
    parse_context_to_messages "role: user\nhello \n\nrole: user\nbye\n\n".data
      = [⟨"user".data, "hello".data⟩, ⟨"user".data, "bye".data⟩] ∧
    (∀ m ∈ parse_context_to_messages
        "role: user\nhello \n\nrole: user\nbye\n\n".data,
      m.content ≠ "hello ".data) :=
  ⟨by decide, by decide⟩

end TgBot
